import Mathlib

/-!
Verification of the no-doze daemon/client core against its specification.

Shallow embedding conventions:
* Python `datetime` values are modelled as `Int` microsecond ticks since the
  epoch (Python datetimes have microsecond resolution).
* Python `timedelta` values are `Int` microsecond counts.
* JSON numbers are carried as exact values (integers as `Int`, floats as
  `ℚ`).  The IEEE-754 double arithmetic and local-time (timezone / DST)
  semantics of `datetime.timestamp` / `datetime.fromtimestamp` are NOT
  modelled; the placeholders below are used only to make the codec total,
  and no theorem relies on their numeric behaviour.
* Fallible Python code (raising exceptions) is modelled with `Except PyErr`.
* Each stateful method becomes a pure function from the old state (plus the
  current clock reading `now`) to the new state.  A single `now` is used per
  call; the source may re-read the clock inside one call, which only moves
  `now` forward within the call.
-/

set_option autoImplicit false

namespace NoDoze

/-- Python exceptions that the modelled code can raise. -/
inductive PyErr : Type where
  | typeError : PyErr
  | keyError : String → PyErr
  | valueError : PyErr
  deriving DecidableEq, Repr

/-! ### JSON values and messages (src/common/message/messages.py, transform.py) -/

/-- JSON scalar values appearing in the modelled wire messages: strings,
integers and (exact) floats.  `common/message/transform.py` passes the decoded
JSON values straight into the message constructors without type checks, so
message fields are modelled as `JVal`. -/
inductive JVal : Type where
  | jstr : String → JVal
  | jint : Int → JVal
  | jnum : ℚ → JVal
  deriving DecidableEq, Repr

/-- `BindMessage` (messages.py): fields `pid`, `uid`, `attempt` as passed to the
constructor; `type` and `version` are always reconstructed by the constructor
(`type(self).__name__` and `API_VERSION = 2`), so they are not stored. -/
structure BindMsg : Type where
  pid : JVal
  uid : JVal
  attempt : JVal
  deriving DecidableEq, Repr

/-- `InhibitMessage` (messages.py): `expiry_timestamp` is a datetime
(microsecond ticks). -/
structure InhibitMsg : Type where
  pid : JVal
  uid : JVal
  expiry : Int
  deriving DecidableEq, Repr

/-- A decoded message. -/
inductive Msg : Type where
  | bind : BindMsg → Msg
  | inhibit : InhibitMsg → Msg
  deriving DecidableEq, Repr

/-- Idealized placeholder for `datetime.timestamp` (microsecond ticks to
epoch seconds).  The real function returns an IEEE-754 double of a local-time
dependent conversion for naive datetimes; neither the double rounding nor the
timezone conversion is modelled here, so no theorem in this file depends on
this definition's numeric behaviour. -/
def timestampOfDt (dt : Int) : ℚ := (dt : ℚ) / 1000000

/-- Idealized placeholder for `datetime.fromtimestamp` applied to a decoded
JSON number: a `TypeError` on a non-number, as in the source, and otherwise
some microsecond-tick result so that `objectHook` is total.  The real
function converts an IEEE-754 double through local time; that arithmetic is
not modelled, and no theorem in this file depends on the value produced
here.  A JSON integer (Python `int`) is also accepted, as `fromtimestamp`
is. -/
def fromtimestampJ (v : JVal) : Except PyErr Int :=
  match v with
  | .jnum q => .ok (round (q * 1000000))
  | .jint n => .ok (n * 1000000)
  | .jstr _ => .error .typeError

/-- `MessageEncoder.default` composed with JSON object serialization: a message
becomes its `__dict__`, in attribute insertion order; the datetime field goes
through `datetime.timestamp`. -/
def encodeMsg (m : Msg) : List (String × JVal) :=
  match m with
  | .bind b =>
      [("pid", b.pid), ("uid", b.uid), ("attempt", b.attempt),
       ("type", .jstr "BindMessage"), ("version", .jint 2)]
  | .inhibit i =>
      [("pid", i.pid), ("uid", i.uid),
       ("expiry_timestamp", .jnum (timestampOfDt i.expiry)),
       ("type", .jstr "InhibitMessage"), ("version", .jint 2)]

/-- Python `d[key]` on a decoded JSON object: `KeyError` when absent. -/
def dictIndex (d : List (String × JVal)) (key : String) : Except PyErr JVal :=
  match d.lookup key with
  | some v => .ok v
  | none => .error (.keyError key)

/-- `MessageDecoder.object_hook` (transform.py lines 23-37): reads
`d.get("type", "[UNKNOWN]")`, then builds the message via the constructor,
indexing the required fields left to right; an unmatched `type` raises
`ValueError`. -/
def objectHook (d : List (String × JVal)) : Except PyErr Msg :=
  let t := (d.lookup "type").getD (.jstr "[UNKNOWN]")
  if t = .jstr "BindMessage" then do
    let pid ← dictIndex d "pid"
    let uid ← dictIndex d "uid"
    let att ← dictIndex d "attempt"
    .ok (.bind ⟨pid, uid, att⟩)
  else if t = .jstr "InhibitMessage" then do
    let pid ← dictIndex d "pid"
    let uid ← dictIndex d "uid"
    let ev ← dictIndex d "expiry_timestamp"
    let e ← fromtimestampJ ev
    .ok (.inhibit ⟨pid, uid, e⟩)
  else .error .valueError

/-! ### ScheduledInhibition (src/server/scheduled_inhibition.py) -/

/-- The callback held by `self._timer`: either the dummy no-op installed by
`__enter__`, or the unlock callback of `_create_unlock_callback`, which
captured `expected_until`. -/
inductive TimerCb : Type where
  | noop : TimerCb
  | unlock : Int → TimerCb
  deriving DecidableEq, Repr

/-- State of a `ScheduledInhibition`.  The three optionals are `none` exactly
when the instance is closed (before `__enter__` / after `__exit__`).
`sleepLockHeld` models the `SleepInhibitor`: present iff the object exists,
payload = whether the sleep lock is currently held. -/
structure SIState : Type where
  inhibitUntil : Option Int
  sleepLockHeld : Option Bool
  timer : Option TimerCb
  deriving DecidableEq, Repr

/-- State produced by `__init__` (all fields `None`). -/
def initSI : SIState := ⟨none, none, none⟩

/-- State produced by `__enter__` at clock reading `now`: `_inhibit_until =
datetime.now()`, a fresh `SleepInhibitor` (no lock held yet), a dummy timer. -/
def enterSI (now : Int) : SIState := ⟨some now, some false, some .noop⟩

/-- `__exit__`: all three fields are nulled under the mutex. -/
def exitSI (_ : SIState) : SIState := ⟨none, none, none⟩

/-- `set_inhibitor` (lines 22-53).  The unguarded fast path evaluates
`max(datetime.now(), self._inhibit_until)`, which raises `TypeError` when
`_inhibit_until` is `None`.  Inside the critical section the code first checks
`all([...])` (all three fields non-`None` — these objects are always truthy)
and then repeats the comparison; on success it cancels the timer, sets
`_inhibit_until = until`, acquires the sleep lock, and starts a new timer whose
callback captured `expected_until = until`. -/
def setInhibitor (s : SIState) (now untl : Int) : Except PyErr (Bool × SIState) :=
  match s.inhibitUntil with
  | none => .error .typeError
  | some iu =>
    if max now iu ≥ untl then .ok (false, s)
    else if s.inhibitUntil.isNone || s.sleepLockHeld.isNone || s.timer.isNone then
      .ok (false, s)
    else if max now iu ≥ untl then .ok (false, s)
    else .ok (true, ⟨some untl, some true, some (.unlock untl)⟩)

/-- `unset_inhibitor` (lines 59-76): under the mutex, refuse when closed;
refuse when `set_at != self._inhibit_until and not force`; otherwise
`allow_sleep()` and return `True`. -/
def unsetInhibitor (s : SIState) (setAt : Int) (force : Bool) : Bool × SIState :=
  if s.inhibitUntil.isNone || s.sleepLockHeld.isNone || s.timer.isNone then
    (false, s)
  else if s.inhibitUntil ≠ some setAt ∧ ¬force then (false, s)
  else (true, { s with sleepLockHeld := some false })

/-- `inhibit_until` (line 78). -/
def inhibitUntilObs (s : SIState) : Option Int := s.inhibitUntil

/-- One `set_inhibitor` call viewed as a state transformer (an exception
leaves the state untouched: the only raise point precedes every mutation). -/
def siStep (s : SIState) (c : Int × Int) : SIState :=
  match setInhibitor s c.1 c.2 with
  | .ok (_, s2) => s2
  | .error _ => s

/-- Observed `inhibit_until()` after each call of a call sequence; the
deadline is read with `getD 0`, which is exact while the instance stays open. -/
def siTraceN : SIState → List (Int × Int) → List Int
  | _, [] => []
  | s, c :: cs => (inhibitUntilObs (siStep s c)).getD 0 :: siTraceN (siStep s c) cs

/-! ### Daemon server state (src/no_dozed.py) -/

/-- Daemon state relevant to message handling: `_bound_clients` (a Python set
of the pids taken from messages) and the owned `ScheduledInhibition`. -/
structure ServerState : Type where
  boundClients : Finset JVal
  inhibitor : SIState
  deriving DecidableEq

/-- `Server._handle_bind` (lines 173-179): a pid already in the set is logged
and accepted again; a new pid is added. -/
def handleBind (st : ServerState) (m : BindMsg) : ServerState :=
  if m.pid ∈ st.boundClients then st
  else { st with boundClients := insert m.pid st.boundClients }

/-- `Server._handle_inhibit` (lines 181-189).  The second component is the
list of arguments passed to `ScheduledInhibition.set_inhibitor` during the
call (empty = no call was made).  An unbound pid is ignored with a warning. -/
def handleInhibit (st : ServerState) (now : Int) (m : InhibitMsg) :
    Except PyErr ServerState × List Int :=
  if m.pid ∈ st.boundClients then
    match setInhibitor st.inhibitor now m.expiry with
    | .ok (_, si2) => (.ok { st with inhibitor := si2 }, [m.expiry])
    | .error e => (.error e, [m.expiry])
  else (.ok st, [])

/-- `Server._receive_message` (lines 207-230) after reading one decoded JSON
object from the pipe: decode errors and handler exceptions are caught, logged
and dropped, leaving the state unchanged (`_handle_inhibit` mutates nothing
before its only raise point). -/
def receiveMessage (st : ServerState) (now : Int) (d : List (String × JVal)) :
    ServerState :=
  match objectHook d with
  | .error _ => st
  | .ok (.bind m) => handleBind st m
  | .ok (.inhibit m) =>
    match handleInhibit st now m with
    | (.ok st2, _) => st2
    | (.error _, _) => st

/-- `Server.bound_to` (lines 266-267): a copy of the bound-client pid set. -/
def boundTo (st : ServerState) : Finset JVal := st.boundClients

/-! ### Stale-pipe sweep (src/no_dozed.py lines 150-171) -/

/-- Result of `re.compile(FIFO_PREFIX + r"(\d+)").match(name)` on a directory
entry: `re.match` anchors only at the start of the string, so it succeeds on
any name beginning with `FIFO_` followed by at least one digit, and group 1 is
the maximal leading digit run (the trailing rest of the name is ignored). -/
def matchFifo (name : List Char) : Option (List Char) :=
  if "FIFO_".toList.isPrefixOf name then
    let ds := (name.drop 5).takeWhile (fun c => c.isDigit)
    if ds.isEmpty then none else some ds
  else none

/-- Python `pid == os.getpid()` where `pid` is the matched group (a `str`) and
`os.getpid()` returns an `int`: a `str` never compares equal to an `int`. -/
def pyStrEqInt (_s : List Char) (_n : Nat) : Bool := false

/-- What `_clear_stale_fifos` does with one directory entry. -/
inductive SweepAction : Type where
  | skip : SweepAction
  | delete : SweepAction
  | raiseFileExists : SweepAction
  deriving DecidableEq, Repr

/-- Decision taken by `_clear_stale_fifos` for one `FIFO_*` glob entry.
`ps pid = (returncode == 0, stdout ends with this file's basename)` models the
`subprocess.run(["ps", ...])` lookup of the decimal pid string. -/
def sweepEntry (ps : List Char → Bool × Bool) (myPid : Nat) (name : List Char) :
    SweepAction :=
  match matchFifo name with
  | none => .skip
  | some pid =>
    let r := ps pid
    if (!r.1) || pyStrEqInt pid myPid || (r.1 && !r.2) then .delete
    else .raiseFileExists

/-- The shape the spec claims is required for deletion: the full entry name is
`FIFO_` followed by (one or more) digits and nothing else. -/
def ExactFifoName (name : List Char) : Prop :=
  ∃ ds, name = "FIFO_".toList ++ ds ∧ ds ≠ [] ∧ ∀ c ∈ ds, c.isDigit

/-! ### heapq (CPython `Lib/heapq.py`, used by src/core/priority_queue.py)

The queue's elements are compared with `<` only, which `ScheduledCheck.__lt__`
defines as `<` on the `time` field; `k` extracts that key.  Lists model Python
lists; `getD _ default` models an in-bounds `heap[i]` read. -/

/-- `_siftdown(heap, startpos, pos)` with `newitem = heap[pos]` already read:
walk the path to the root, moving parents down until `newitem` fits. -/
def siftdownLoop {α : Type} [Inhabited α] (k : α → Int) (heap : List α)
    (startpos pos : Nat) (newitem : α) : List α :=
  if _h : startpos < pos then
    if k newitem < k (heap.getD ((pos - 1) / 2) default) then
      siftdownLoop k (heap.set pos (heap.getD ((pos - 1) / 2) default))
        startpos ((pos - 1) / 2) newitem
    else heap.set pos newitem
  else heap.set pos newitem
termination_by pos
decreasing_by
  have h2 := Nat.div_le_self (pos - 1) 2
  omega

/-- `heappush(heap, item)`: append, then sift down from the last index. -/
def heappush {α : Type} [Inhabited α] (k : α → Int) (heap : List α) (item : α) :
    List α :=
  siftdownLoop k (heap ++ [item]) 0 heap.length item

/-- The loop of `_siftup(heap, pos)`: bubble the smaller child up into the
hole until reaching a leaf; returns the array and the final (leaf) position.
The Python test `rightpos < endpos and not heap[childpos] < heap[rightpos]`
selects the right child; otherwise the left child. -/
def siftupLoop {α : Type} [Inhabited α] (k : α → Int) (heap : List α)
    (endpos pos : Nat) : List α × Nat :=
  if hl : 2 * pos + 1 < endpos then
    if 2 * pos + 2 < endpos ∧
        ¬ k (heap.getD (2 * pos + 1) default) < k (heap.getD (2 * pos + 2) default) then
      siftupLoop k (heap.set pos (heap.getD (2 * pos + 2) default)) endpos (2 * pos + 2)
    else
      siftupLoop k (heap.set pos (heap.getD (2 * pos + 1) default)) endpos (2 * pos + 1)
  else (heap, pos)
termination_by endpos - pos

/-- `_siftup(heap, pos)`: read `newitem`, bubble the smaller children up, put
`newitem` into the leaf hole and sift it down towards `startpos = pos`. -/
def siftup {α : Type} [Inhabited α] (k : α → Int) (heap : List α) (pos : Nat) :
    List α :=
  let newitem := heap.getD pos default
  let hp := siftupLoop k heap heap.length pos
  siftdownLoop k hp.1 pos hp.2 newitem

/-- `heappop(heap)`: pop the last element; if the heap is still non-empty,
return the root, move the last element into the root and sift up.  `none`
models the `IndexError` of `list.pop()` on an empty list. -/
def heappop {α : Type} [Inhabited α] (k : α → Int) (heap : List α) :
    Option (α × List α) :=
  match heap.getLast? with
  | none => none
  | some lastelt =>
    let rest := heap.dropLast
    if rest.isEmpty then some (lastelt, rest)
    else some (rest.getD 0 default, siftup k (rest.set 0 lastelt) 0)

/-! ### PriorityQueue (src/core/priority_queue.py) -/

/-- The wrapper class: `_minHeap` is the backing list. -/
structure PriorityQueue (α : Type) : Type where
  minHeap : List α
  deriving DecidableEq, Repr

/-- `PriorityQueue()` with no items. -/
def PriorityQueue.empty {α : Type} : PriorityQueue α := ⟨[]⟩

/-- `offer(element)`. -/
def PriorityQueue.offer {α : Type} [Inhabited α] (k : α → Int)
    (q : PriorityQueue α) (x : α) : PriorityQueue α :=
  ⟨heappush k q.minHeap x⟩

/-- `poll()`: `_assert_non_empty` raises `ValueError("Queue is empty.")`,
otherwise `heapq.heappop`. -/
def PriorityQueue.poll {α : Type} [Inhabited α] (k : α → Int)
    (q : PriorityQueue α) : Except PyErr (α × PriorityQueue α) :=
  if q.minHeap.isEmpty then .error .valueError
  else
    match heappop k q.minHeap with
    | some (x, h) => .ok (x, ⟨h⟩)
    | none => .error .valueError

/-- `peek()`: `_assert_non_empty`, then `_minHeap[0]`. -/
def PriorityQueue.peek {α : Type} [Inhabited α] (q : PriorityQueue α) :
    Except PyErr α :=
  if q.minHeap.isEmpty then .error .valueError
  else .ok (q.minHeap.getD 0 default)

/-- The binary-heap invariant of a backing list: each entry is at least its
parent `(j-1)/2` in key order. -/
def IsHeap {α : Type} [Inhabited α] (k : α → Int) (l : List α) : Prop :=
  ∀ j, j < l.length → 0 < j →
    k (l.getD ((j - 1) / 2) default) ≤ k (l.getD j default)

/-- Backing lists reachable from the empty queue by `offer` / successful
`poll` operations. -/
inductive ReachPQ {α : Type} [Inhabited α] (k : α → Int) : List α → Prop where
  | nil : ReachPQ k []
  | offer {l : List α} {x : α} : ReachPQ k l → ReachPQ k (heappush k l x)
  | poll {l l2 : List α} {x : α} :
      ReachPQ k l → heappop k l = some (x, l2) → ReachPQ k l2

/-! ### Client scheduled checks (src/no_doze_client.py lines 149-175) -/

/-- An inhibiting condition as seen by the scheduler: an identity, its period
(`cond.period()`, a positive duration) and the (pure model of the) result of
`does_inhibit()`. -/
structure Cond : Type where
  cid : Nat
  period : Int
  inhibits : Bool
  deriving DecidableEq, Inhabited, Repr

/-- `ScheduledCheck`: ordered by `time` (its `__lt__`). -/
structure SchedCheck : Type where
  time : Int
  cond : Cond
  deriving DecidableEq, Inhabited, Repr

/-- The heap key realising `ScheduledCheck.__lt__`. -/
def scKey (sc : SchedCheck) : Int := sc.time

/-- The entry re-offered for a polled entry `(lastTime, cond)`:
`scheduled_time = last_scheduled_time + period`, reset to `now + period` when
that lies in the past. -/
def reoffer (now : Int) (sc : SchedCheck) : SchedCheck :=
  ⟨if sc.time + sc.cond.period < now then now + sc.cond.period
    else sc.time + sc.cond.period, sc.cond⟩

/-- The `while datetime.now() >= self._schedule.peek().time` loop of
`_handle_scheduled_checks`, with one fixed clock reading `now`, instrumented
with the list of polled entries and the trace of `does_inhibit()` calls (one
per polled entry, in call order).  `none` covers running out of fuel and the
`ValueError` of peeking an empty schedule. -/
def hscLoop (now : Int) :
    Nat → List SchedCheck → Int → Bool → List SchedCheck → List Cond →
    Option (List SchedCheck × Int × Bool × List SchedCheck × List Cond)
  | 0, _, _, _, _, _ => none
  | fuel + 1, sched, iu, inc, polled, trace =>
    match sched with
    | [] => none
    | root :: _ =>
      if now ≥ root.time then
        match heappop scKey sched with
        | none => none
        | some (sc, sched2) =>
          let scheduled := if sc.time + sc.cond.period < now
            then now + sc.cond.period else sc.time + sc.cond.period
          let p := if sc.cond.inhibits then
              (if scheduled > iu then (scheduled, true) else (iu, inc))
            else (iu, inc)
          hscLoop now fuel (heappush scKey sched2 ⟨scheduled, sc.cond⟩)
            p.1 p.2 (polled ++ [sc]) (trace ++ [sc.cond])
      else some (sched, iu, inc, polled, trace)

/-- `_handle_scheduled_checks` entry point: `sleep_increased = False`, empty
instrumentation. -/
def handleScheduledChecks (now : Int) (fuel : Nat) (sched : List SchedCheck)
    (iu : Int) :
    Option (List SchedCheck × Int × Bool × List SchedCheck × List Cond) :=
  hscLoop now fuel sched iu false [] []

/-- Verification predicate for `siftdownLoop` with `startpos = 0`: the array
with `newitem` written at the hole `pos` satisfies every parent-child relation
whose child is not `pos`, and the parent of `pos` is at most every child of
`pos` (the grandparent bridge used while bubbling up). -/
def UpInv {α : Type} [Inhabited α] (k : α → Int) (l : List α) (pos : Nat)
    (newitem : α) : Prop :=
  (∀ j, j < l.length → 0 < j → j ≠ pos →
      k ((l.set pos newitem).getD ((j - 1) / 2) default) ≤
        k ((l.set pos newitem).getD j default)) ∧
  (0 < pos → ∀ j, j < l.length → (j - 1) / 2 = pos →
      k ((l.set pos newitem).getD ((pos - 1) / 2) default) ≤
        k ((l.set pos newitem).getD j default))

/-- Verification predicate for the walk-down phase of `siftup`: every
parent-child relation not touching the hole `pos` holds, and the parent of
`pos` is at most every child of `pos`. -/
def DownInv {α : Type} [Inhabited α] (k : α → Int) (l : List α) (pos : Nat) :
    Prop :=
  (∀ j, j < l.length → 0 < j → j ≠ pos → (j - 1) / 2 ≠ pos →
      k (l.getD ((j - 1) / 2) default) ≤ k (l.getD j default)) ∧
  (0 < pos → ∀ j, j < l.length → (j - 1) / 2 = pos →
      k (l.getD ((pos - 1) / 2) default) ≤ k (l.getD j default))

/-! ### List helper lemmas -/

theorem getD_set_self {α : Type} [Inhabited α] (l : List α) (i : Nat) (a : α)
    (h : i < l.length) : (l.set i a).getD i default = a := by
  rw [List.getD_eq_getElem _ _ (by simpa using h)]
  simp [List.getElem_set, h]

theorem getD_set_ne {α : Type} [Inhabited α] (l : List α) {i j : Nat} (a : α)
    (h : i ≠ j) : (l.set i a).getD j default = l.getD j default := by
  by_cases hj : j < l.length
  · rw [List.getD_eq_getElem _ _ (by simpa using hj), List.getD_eq_getElem _ _ hj]
    simp [List.getElem_set, h]
  · rw [List.getD_eq_default _ _ (by simpa using Nat.le_of_not_lt hj),
      List.getD_eq_default _ _ (Nat.le_of_not_lt hj)]

theorem getD_cons_set_perm {α : Type} [Inhabited α] :
    ∀ (l : List α) (i : Nat), i < l.length →
      ∀ a : α, ((l.getD i default) :: l.set i a).Perm (a :: l)
  | [], i, h, _ => absurd h (by simp)
  | x :: t, 0, _, a => by simpa using List.Perm.swap a x t
  | x :: t, i + 1, h, a => by
    have ih := getD_cons_set_perm t i (by simpa using h) a
    have h1 : ((x :: t).getD (i + 1) default) :: (x :: t).set (i + 1) a
        = t.getD i default :: x :: t.set i a := by
      simp [List.getD_cons_succ]
    rw [h1]
    exact (List.Perm.swap x (t.getD i default) (t.set i a)).trans
      ((ih.cons x).trans (List.Perm.swap a x t))

theorem set_getD_self_eq {α : Type} [Inhabited α] (l : List α) (i : Nat) :
    l.set i (l.getD i default) = l := by
  apply List.ext_getElem (by simp)
  intro j hj hj2
  simp only [List.getElem_set]
  split
  · next heq => subst heq; exact List.getD_eq_getElem l default hj2
  · rfl

theorem set_swap_perm {α : Type} [Inhabited α] (l : List α) {i j : Nat}
    (hij : i ≠ j) (hi : i < l.length) (hj : j < l.length) (x : α) :
    ((l.set i (l.getD j default)).set j x).Perm (l.set i x) := by
  have hlen : j < (l.set i (l.getD j default)).length := by simpa using hj
  have h1 := getD_cons_set_perm (l.set i (l.getD j default)) j hlen x
  have hgd : (l.set i (l.getD j default)).getD j default = l.getD j default :=
    getD_set_ne l _ hij
  rw [hgd] at h1
  have h2 : (((l.set i x).getD i default) ::
      (l.set i x).set i (l.getD j default)).Perm
      ((l.getD j default) :: l.set i x) :=
    getD_cons_set_perm (l.set i x) i (by simpa using hi) (l.getD j default)
  rw [getD_set_self l i x hi, List.set_set] at h2
  exact (List.perm_cons (l.getD j default)).1 (h1.trans h2)

theorem isHeap_root_le {α : Type} [Inhabited α] (k : α → Int) (l : List α)
    (hh : IsHeap k l) :
    ∀ j, j < l.length → k (l.getD 0 default) ≤ k (l.getD j default) := by
  intro j
  induction j using Nat.strong_induction_on with
  | _ j ih =>
    intro hj
    rcases Nat.eq_zero_or_pos j with h0 | h0
    · subst h0; exact le_refl _
    · have hp : (j - 1) / 2 < j := by
        have := Nat.div_le_self (j - 1) 2
        omega
      exact le_trans (ih _ hp (lt_trans hp hj)) (hh j hj h0)

theorem siftdownLoop_perm {α : Type} [Inhabited α] (k : α → Int) :
    ∀ (pos : Nat) (l : List α) (startpos : Nat) (newitem : α), pos < l.length →
      (siftdownLoop k l startpos pos newitem).Perm (l.set pos newitem) := by
  intro pos
  induction pos using Nat.strong_induction_on with
  | _ pos ih =>
    intro l startpos newitem hlen
    rw [siftdownLoop]
    split
    · next hgt =>
      split
      · next hlt =>
        have hpp : (pos - 1) / 2 < pos := by
          have := Nat.div_le_self (pos - 1) 2
          omega
        have hplen : (pos - 1) / 2 <
            (l.set pos (l.getD ((pos - 1) / 2) default)).length := by
          simp only [List.length_set]
          omega
        exact (ih _ hpp _ startpos newitem hplen).trans
          (set_swap_perm l (by omega) hlen (by omega) newitem)
      · exact List.Perm.refl _
    · exact List.Perm.refl _

theorem upInv_step {α : Type} [Inhabited α] (k : α → Int) (l : List α)
    (pos : Nat) (newitem : α) (hpos : 0 < pos) (hlen : pos < l.length)
    (hinv : UpInv k l pos newitem)
    (hlt : k newitem < k (l.getD ((pos - 1) / 2) default)) :
    UpInv k (l.set pos (l.getD ((pos - 1) / 2) default)) ((pos - 1) / 2)
      newitem := by
  obtain ⟨ha, hb⟩ := hinv
  have hpp : (pos - 1) / 2 < pos := by
    have := Nat.div_le_self (pos - 1) 2
    omega
  have hppne : (pos - 1) / 2 ≠ pos := by omega
  have hpplen : (pos - 1) / 2 < l.length := by omega
  -- entries of the new conceptual array
  have mE_pp : ((l.set pos (l.getD ((pos - 1) / 2) default)).set ((pos - 1) / 2)
      newitem).getD ((pos - 1) / 2) default = newitem :=
    getD_set_self _ _ _ (by simp only [List.length_set]; omega)
  have mE_pos : ((l.set pos (l.getD ((pos - 1) / 2) default)).set ((pos - 1) / 2)
      newitem).getD pos default = l.getD ((pos - 1) / 2) default := by
    rw [getD_set_ne _ _ hppne, getD_set_self _ _ _ hlen]
  have mE_other : ∀ q, q ≠ (pos - 1) / 2 → q ≠ pos →
      ((l.set pos (l.getD ((pos - 1) / 2) default)).set ((pos - 1) / 2)
        newitem).getD q default = l.getD q default := by
    intro q h1 h2
    rw [getD_set_ne _ _ (Ne.symm h1), getD_set_ne _ _ (Ne.symm h2)]
  -- entries of the old conceptual array
  have oE_pos : (l.set pos newitem).getD pos default = newitem :=
    getD_set_self _ _ _ hlen
  have oE_other : ∀ q, q ≠ pos →
      (l.set pos newitem).getD q default = l.getD q default := by
    intro q h1
    rw [getD_set_ne _ _ (Ne.symm h1)]
  constructor
  · intro j hj hj0 hjpp
    rw [List.length_set] at hj
    by_cases hjpos : j = pos
    · subst hjpos
      rw [mE_pp, mE_pos]
      exact le_of_lt hlt
    · by_cases hq1 : (j - 1) / 2 = pos
      · -- j is a child of pos
        have hjgt : pos < j := by omega
        have := hb hpos j hj hq1
        rw [oE_other ((pos - 1) / 2) hppne, oE_other j hjpos] at this
        rw [hq1, mE_pos, mE_other j hjpp hjpos]
        exact this
      · by_cases hq2 : (j - 1) / 2 = (pos - 1) / 2
        · -- parent of j is the new hole: j is pos's sibling (or pos, excluded)
          have := ha j hj hj0 hjpos
          rw [oE_other _ (by omega : (j - 1) / 2 ≠ pos), oE_other j hjpos] at this
          rw [hq2, mE_pp, mE_other j hjpp hjpos]
          exact le_trans (le_of_lt hlt) (hq2 ▸ this)
        · have := ha j hj hj0 hjpos
          rw [oE_other _ hq1, oE_other j hjpos] at this
          rw [mE_other _ hq2 hq1, mE_other j hjpp hjpos]
          exact this
  · intro hpp0 j hj hq
    rw [List.length_set] at hj
    have hgp_ne_pp : ((pos - 1) / 2 - 1) / 2 ≠ (pos - 1) / 2 := by
      have := Nat.div_le_self ((pos - 1) / 2 - 1) 2
      omega
    have hgp_ne_pos : ((pos - 1) / 2 - 1) / 2 ≠ pos := by
      have := Nat.div_le_self ((pos - 1) / 2 - 1) 2
      omega
    have hjne_pp : j ≠ (pos - 1) / 2 := by omega
    have hgp := ha ((pos - 1) / 2) hpplen hpp0 hppne
    rw [oE_other _ (by omega : ((pos - 1) / 2 - 1) / 2 ≠ pos),
      oE_other _ hppne] at hgp
    by_cases hjpos : j = pos
    · subst hjpos
      rw [mE_other _ hgp_ne_pp hgp_ne_pos, mE_pos]
      exact hgp
    · have hj2 := ha j hj (by omega) hjpos
      rw [oE_other _ (by omega : (j - 1) / 2 ≠ pos), oE_other j hjpos, hq] at hj2
      rw [mE_other _ hgp_ne_pp hgp_ne_pos, mE_other j hjne_pp hjpos]
      exact le_trans hgp hj2

theorem siftdownLoop_isHeap {α : Type} [Inhabited α] (k : α → Int) :
    ∀ (pos : Nat) (l : List α) (newitem : α), pos < l.length →
      UpInv k l pos newitem → IsHeap k (siftdownLoop k l 0 pos newitem) := by
  intro pos
  induction pos using Nat.strong_induction_on with
  | _ pos ih =>
    intro l newitem hlen hinv
    rw [siftdownLoop]
    split
    · next hgt =>
      split
      · next hlt =>
        have hpp : (pos - 1) / 2 < pos := by
          have := Nat.div_le_self (pos - 1) 2
          omega
        exact ih _ hpp _ newitem (by simp only [List.length_set]; omega)
          (upInv_step k l pos newitem hgt hlen hinv hlt)
      · next hlt =>
        intro j hj hj0
        rw [List.length_set] at hj
        by_cases hjpos : j = pos
        · have hppne : (pos - 1) / 2 ≠ pos := by
            have := Nat.div_le_self (pos - 1) 2
            omega
          rw [hjpos, getD_set_ne _ _ (Ne.symm hppne), getD_set_self _ _ _ hlen]
          exact le_of_not_lt hlt
        · exact hinv.1 j hj hj0 hjpos
    · next hgt =>
      intro j hj hj0
      rw [List.length_set] at hj
      exact hinv.1 j hj hj0 (by omega)

theorem set_append_last {α : Type} :
    ∀ (l : List α) (x y : α), (l ++ [x]).set l.length y = l ++ [y]
  | [], _, _ => rfl
  | a :: t, x, y => by
    simp [set_append_last t x y]

theorem heappush_perm {α : Type} [Inhabited α] (k : α → Int) (l : List α)
    (x : α) : (heappush k l x).Perm (x :: l) := by
  have h1 := siftdownLoop_perm k l.length (l ++ [x]) 0 x (by simp)
  rw [heappush, set_append_last] at *
  exact h1.trans (List.perm_append_singleton x l)

theorem heappush_isHeap {α : Type} [Inhabited α] (k : α → Int) (l : List α)
    (x : α) (hh : IsHeap k l) : IsHeap k (heappush k l x) := by
  rw [heappush]
  apply siftdownLoop_isHeap k l.length (l ++ [x]) x (by simp)
  constructor
  · intro j hj hj0 hjpos
    rw [List.length_append, List.length_cons, List.length_nil] at hj
    have hjl : j < l.length := by omega
    have hq : (j - 1) / 2 < l.length := by
      have := Nat.div_le_self (j - 1) 2
      omega
    rw [set_append_last, List.getD_append _ _ _ _ hjl, List.getD_append _ _ _ _ hq]
    exact hh j hjl hj0
  · intro hpos0 j hj hq
    rw [List.length_append, List.length_cons, List.length_nil] at hj
    omega

theorem downInv_step {α : Type} [Inhabited α] (k : α → Int) (l : List α)
    (pos cp : Nat) (hlen : pos < l.length)
    (hcp : cp = 2 * pos + 1 ∨ cp = 2 * pos + 2) (hcplen : cp < l.length)
    (hsm : ∀ oc, (oc = 2 * pos + 1 ∨ oc = 2 * pos + 2) → oc < l.length →
      k (l.getD cp default) ≤ k (l.getD oc default))
    (hinv : DownInv k l pos) :
    DownInv k (l.set pos (l.getD cp default)) cp := by
  obtain ⟨ha, hb⟩ := hinv
  have hposcp : pos < cp := by omega
  have hE_pos : (l.set pos (l.getD cp default)).getD pos default =
      l.getD cp default := getD_set_self _ _ _ hlen
  have hE_other : ∀ q, q ≠ pos →
      (l.set pos (l.getD cp default)).getD q default = l.getD q default := by
    intro q h1
    rw [getD_set_ne _ _ (Ne.symm h1)]
  constructor
  · intro j hj hj0 hjcp hqcp
    rw [List.length_set] at hj
    by_cases hjpos : j = pos
    · have hq_ne_pos : (j - 1) / 2 ≠ pos := by
        have := Nat.div_le_self (j - 1) 2
        omega
      rw [hjpos, hE_pos, hE_other _ (hjpos ▸ hq_ne_pos)]
      have hchild : (cp - 1) / 2 = pos := by omega
      exact hb (by omega) cp hcplen hchild
    · by_cases hq : (j - 1) / 2 = pos
      · rw [hq, hE_pos, hE_other j hjpos]
        exact hsm j (by omega) hj
      · rw [hE_other _ hq, hE_other j hjpos]
        exact ha j hj hj0 hjpos hq
  · intro hcp0 j hj hq
    rw [List.length_set] at hj
    have hcppar : (cp - 1) / 2 = pos := by omega
    have hjne : j ≠ pos := by omega
    have hqne : (j - 1) / 2 ≠ pos := by omega
    rw [hcppar, hE_pos, hE_other j hjne, ← hq]
    exact ha j hj (by omega) hjne hqne

theorem downInv_leaf_upInv {α : Type} [Inhabited α] (k : α → Int) (l : List α)
    (pos : Nat) (newitem : α) (_hlen : pos < l.length)
    (hleaf : l.length ≤ 2 * pos + 1) (hinv : DownInv k l pos) :
    UpInv k l pos newitem := by
  obtain ⟨ha, hb⟩ := hinv
  constructor
  · intro j hj hj0 hjpos
    have hqpos : (j - 1) / 2 ≠ pos := by omega
    rw [getD_set_ne _ _ (Ne.symm hqpos), getD_set_ne _ _ (Ne.symm hjpos)]
    exact ha j hj hj0 hjpos hqpos
  · intro hpos0 j hj hq
    omega

theorem siftupLoop_spec {α : Type} [Inhabited α] (k : α → Int) :
    ∀ (n : Nat) (l : List α) (endpos pos : Nat), endpos = l.length →
      endpos - pos = n → pos < endpos →
      (siftupLoop k l endpos pos).1.length = endpos ∧
      (siftupLoop k l endpos pos).2 < endpos ∧
      endpos ≤ 2 * (siftupLoop k l endpos pos).2 + 1 ∧
      (∀ x, ((siftupLoop k l endpos pos).1.set (siftupLoop k l endpos pos).2
        x).Perm (l.set pos x)) ∧
      (DownInv k l pos →
        DownInv k (siftupLoop k l endpos pos).1 (siftupLoop k l endpos pos).2) := by
  intro n
  induction n using Nat.strong_induction_on with
  | _ n ih =>
    intro l endpos pos hend hn hlen
    rw [siftupLoop]
    split
    · next hl =>
      have hstep : ∀ cp, cp = 2 * pos + 1 ∨ cp = 2 * pos + 2 → cp < endpos →
          (∀ oc, (oc = 2 * pos + 1 ∨ oc = 2 * pos + 2) → oc < l.length →
            k (l.getD cp default) ≤ k (l.getD oc default)) →
          (siftupLoop k (l.set pos (l.getD cp default)) endpos cp).1.length
            = endpos ∧
          (siftupLoop k (l.set pos (l.getD cp default)) endpos cp).2 < endpos ∧
          endpos ≤ 2 * (siftupLoop k (l.set pos (l.getD cp default)) endpos cp).2
            + 1 ∧
          (∀ x, ((siftupLoop k (l.set pos (l.getD cp default)) endpos cp).1.set
            (siftupLoop k (l.set pos (l.getD cp default)) endpos cp).2 x).Perm
            (l.set pos x)) ∧
          (DownInv k l pos →
            DownInv k (siftupLoop k (l.set pos (l.getD cp default)) endpos cp).1
              (siftupLoop k (l.set pos (l.getD cp default)) endpos cp).2) := by
        intro cp hcp hcpe hsm
        have hrec := ih (endpos - cp) (by omega)
          (l.set pos (l.getD cp default)) endpos cp
          (by simp only [List.length_set]; exact hend) rfl hcpe
        refine ⟨hrec.1, hrec.2.1, hrec.2.2.1, ?_, ?_⟩
        · intro x
          exact (hrec.2.2.2.1 x).trans
            (set_swap_perm l (by omega) (hend ▸ hlen) (hend ▸ hcpe) x)
        · intro hinv
          exact hrec.2.2.2.2
            (downInv_step k l pos cp (hend ▸ hlen) hcp (hend ▸ hcpe) hsm hinv)
      split
      · next hcond =>
        apply hstep (2 * pos + 2) (Or.inr rfl) hcond.1
        intro oc hoc hocl
        rcases hoc with h | h
        · subst h
          exact le_of_not_lt hcond.2
        · subst h
          exact le_refl _
      · next hcond =>
        apply hstep (2 * pos + 1) (Or.inl rfl) hl
        intro oc hoc hocl
        rcases hoc with h | h
        · subst h
          exact le_refl _
        · subst h
          rw [← hend] at hocl
          have := (not_and.mp hcond) hocl
          exact le_of_lt (not_not.mp this)
    · next hl =>
      exact ⟨hend.symm ▸ rfl, hlen, by omega, fun x => List.Perm.refl _, id⟩

theorem siftup_perm {α : Type} [Inhabited α] (k : α → Int) (l : List α)
    (h0 : 0 < l.length) : (siftup k l 0).Perm l := by
  have spec := siftupLoop_spec k (l.length - 0) l l.length 0 rfl rfl h0
  simp only [siftup]
  have hlen2 : (siftupLoop k l l.length 0).2 <
      (siftupLoop k l l.length 0).1.length := by
    rw [spec.1]
    exact spec.2.1
  have hperm := siftdownLoop_perm k (siftupLoop k l l.length 0).2
    (siftupLoop k l l.length 0).1 0 (l.getD 0 default) hlen2
  have heq : l.set 0 (l.getD 0 default) = l := set_getD_self_eq l 0
  have h2 := spec.2.2.2.1 (l.getD 0 default)
  rw [heq] at h2
  exact hperm.trans h2

theorem siftup_isHeap {α : Type} [Inhabited α] (k : α → Int) (l : List α)
    (h0 : 0 < l.length) (hinv : DownInv k l 0) : IsHeap k (siftup k l 0) := by
  have spec := siftupLoop_spec k (l.length - 0) l l.length 0 rfl rfl h0
  simp only [siftup]
  have hlen2 : (siftupLoop k l l.length 0).2 <
      (siftupLoop k l l.length 0).1.length := by
    rw [spec.1]
    exact spec.2.1
  apply siftdownLoop_isHeap k _ _ _ hlen2
  apply downInv_leaf_upInv k _ _ _ hlen2 ?_ (spec.2.2.2.2 hinv)
  rw [spec.1]
  exact spec.2.2.1

theorem heappop_spec {α : Type} [Inhabited α] (k : α → Int) (l : List α)
    (hne : l ≠ []) :
    ∃ l2, heappop k l = some (l.getD 0 default, l2) ∧
      ((l.getD 0 default) :: l2).Perm l ∧ (IsHeap k l → IsHeap k l2) := by
  obtain ⟨ys, a, rfl⟩ : ∃ ys a, l = ys ++ [a] := by
    rcases List.eq_nil_or_concat l with h | ⟨L, b, hL⟩
    · exact absurd h hne
    · exact ⟨L, b, by simpa [List.concat_eq_append] using hL⟩
  by_cases hys : ys = []
  · subst hys
    refine ⟨[], by simp [heappop], by simp, ?_⟩
    intro _ j hj hj0
    simp at hj
  · have hys0 : 0 < ys.length := List.length_pos.mpr hys
    have hd0 : (ys ++ [a]).getD 0 default = ys.getD 0 default :=
      List.getD_append _ _ _ _ hys0
    have hrun : heappop k (ys ++ [a]) =
        some (ys.getD 0 default, siftup k (ys.set 0 a) 0) := by
      rw [heappop, List.getLast?_concat]
      simp only [List.dropLast_concat]
      rw [if_neg (by simpa [List.isEmpty_iff] using hys)]
    have hset0 : 0 < (ys.set 0 a).length := by simpa using hys0
    refine ⟨siftup k (ys.set 0 a) 0, hd0 ▸ hrun, ?_, ?_⟩
    · rw [hd0]
      have h1 : (siftup k (ys.set 0 a) 0).Perm (ys.set 0 a) :=
        siftup_perm k _ hset0
      exact ((h1.cons _).trans (getD_cons_set_perm ys 0 hys0 a)).trans
        (List.perm_append_singleton a ys).symm
    · intro hh
      apply siftup_isHeap k _ hset0
      constructor
      · intro j hj hj0 hjne hqne
        rw [List.length_set] at hj
        rw [getD_set_ne _ _ (Ne.symm hqne), getD_set_ne _ _ (Ne.symm hjne)]
        have hq : (j - 1) / 2 < ys.length := by
          have := Nat.div_le_self (j - 1) 2
          omega
        rw [← List.getD_append ys [a] default _ hj,
          ← List.getD_append ys [a] default _ hq]
        exact hh j (by simp; omega) hj0
      · intro h0
        omega

theorem reachPQ_isHeap {α : Type} [Inhabited α] {k : α → Int} {l : List α}
    (h : ReachPQ k l) : IsHeap k l := by
  induction h with
  | nil =>
    intro j hj _
    simp at hj
  | @offer l x hr ih => exact heappush_isHeap k l x ih
  | @poll l l2 x hr hpop ih =>
    have hne : l ≠ [] := by
      rintro rfl
      simp [heappop] at hpop
    obtain ⟨l3, hrun, hperm, hheap⟩ := heappop_spec k l hne
    have h2 : l.getD 0 default = x ∧ l3 = l2 := by
      simpa using hrun.symm.trans hpop
    exact h2.2 ▸ hheap ih

/-- C7: after any sequence of `offer` / `poll` operations starting from the
empty `PriorityQueue` (elements keyed by `time`), `peek` on a non-empty queue
returns a minimum of the contents and `poll` removes and returns that same
element; on an empty queue both fail with `ValueError` instead of returning a
value. -/
theorem C7_priorityQueue_peek_poll_min {α : Type} [Inhabited α] (k : α → Int)
    (q : PriorityQueue α) (hr : ReachPQ k q.minHeap) :
    (q.minHeap ≠ [] →
      ∃ x q2, q.peek = .ok x ∧ x ∈ q.minHeap ∧
        (∀ y ∈ q.minHeap, k x ≤ k y) ∧
        PriorityQueue.poll k q = .ok (x, q2) ∧
        (x :: q2.minHeap).Perm q.minHeap) ∧
    (q.minHeap = [] →
      q.peek = .error .valueError ∧
      PriorityQueue.poll k q = .error .valueError) := by
  have hh := reachPQ_isHeap hr
  constructor
  · intro hne
    obtain ⟨l2, hrun, hperm, hheap⟩ := heappop_spec k q.minHeap hne
    have hemp : q.minHeap.isEmpty = false := by
      simpa [List.isEmpty_iff] using hne
    refine ⟨q.minHeap.getD 0 default, ⟨l2⟩, ?_, ?_, ?_, ?_, hperm⟩
    · rw [PriorityQueue.peek, hemp]
      rfl
    · exact hperm.mem_iff.mp (List.mem_cons_self _ _)
    · intro y hy
      obtain ⟨i, hi, rfl⟩ := List.mem_iff_getElem.mp hy
      rw [← List.getD_eq_getElem q.minHeap default hi]
      exact isHeap_root_le k q.minHeap hh i hi
    · rw [PriorityQueue.poll, hemp]
      simp only [Bool.false_eq_true, if_false, hrun]
  · intro hemp
    have hemp2 : q.minHeap.isEmpty = true := by simp [hemp]
    constructor
    · rw [PriorityQueue.peek, hemp2]
      rfl
    · rw [PriorityQueue.poll, hemp2]
      rfl

/-- Concrete queue used to witness C7: two `offer`s from the empty queue. -/
def pqWitness : PriorityQueue SchedCheck :=
  PriorityQueue.offer scKey
    (PriorityQueue.offer scKey PriorityQueue.empty ⟨5, ⟨1, 3, true⟩⟩)
    ⟨3, ⟨2, 4, false⟩⟩

theorem C7_priorityQueue_peek_poll_min_witness :
    (∃ x q2, pqWitness.peek = .ok x ∧ x ∈ pqWitness.minHeap ∧
      (∀ y ∈ pqWitness.minHeap, scKey x ≤ scKey y) ∧
      PriorityQueue.poll scKey pqWitness = .ok (x, q2) ∧
      (x :: q2.minHeap).Perm pqWitness.minHeap) ∧
    (PriorityQueue.empty : PriorityQueue SchedCheck).peek =
      .error .valueError ∧
    PriorityQueue.poll scKey (PriorityQueue.empty : PriorityQueue SchedCheck) =
      .error .valueError :=
  ⟨(C7_priorityQueue_peek_poll_min scKey pqWitness
      (ReachPQ.offer (ReachPQ.offer ReachPQ.nil))).1
      (by simp [pqWitness, PriorityQueue.offer, PriorityQueue.empty,
        heappush, siftdownLoop, scKey]),
   ((C7_priorityQueue_peek_poll_min scKey PriorityQueue.empty ReachPQ.nil).2
      rfl).1,
   ((C7_priorityQueue_peek_poll_min scKey PriorityQueue.empty ReachPQ.nil).2
      rfl).2⟩

theorem setInhibitor_open (iu : Int) (lk : Bool) (tc : TimerCb)
    (now untl : Int) :
    setInhibitor ⟨some iu, some lk, some tc⟩ now untl =
      if untl ≤ max now iu then .ok (false, ⟨some iu, some lk, some tc⟩)
      else .ok (true, ⟨some untl, some true, some (.unlock untl)⟩) := by
  by_cases h : untl ≤ max now iu <;>
    simp [setInhibitor, h]

theorem siStep_open_mono (iu : Int) (lk : Bool) (tc : TimerCb) (c : Int × Int) :
    ∃ iu2 lk2 tc2,
      siStep ⟨some iu, some lk, some tc⟩ c = ⟨some iu2, some lk2, some tc2⟩ ∧
      iu ≤ iu2 := by
  rw [siStep, setInhibitor_open]
  by_cases h : c.2 ≤ max c.1 iu
  · exact ⟨iu, lk, tc, by rw [if_pos h], le_refl iu⟩
  · refine ⟨c.2, true, .unlock c.2, by rw [if_neg h], ?_⟩
    have := le_max_right c.1 iu
    omega

theorem siTraceN_chain :
    ∀ (cs : List (Int × Int)) (iu : Int) (lk : Bool) (tc : TimerCb),
      List.Chain (· ≤ ·) iu
        (siTraceN ⟨some iu, some lk, some tc⟩ cs)
  | [], _, _, _ => List.Chain.nil
  | c :: cs, iu, lk, tc => by
    obtain ⟨iu2, lk2, tc2, hstep, hle⟩ := siStep_open_mono iu lk tc c
    rw [siTraceN, hstep]
    exact List.Chain.cons hle (siTraceN_chain cs iu2 lk2 tc2)

/-- C1: on an open `ScheduledInhibition`, the observed `inhibit_until()`
values along any sequence of `set_inhibitor` calls form a non-decreasing
chain; a call whose deadline is at most `max(now, inhibit_until)` returns
`False` and leaves the state (hence the sleep lock) untouched; and after a
successful `set_inhibitor(until)`, a second call with the same `until` is a
no-op returning `False`. -/
theorem C1_setInhibitor_monotonic (iu0 : Int) (lk : Bool) (tc : TimerCb)
    (cs : List (Int × Int)) (now untl : Int) :
    List.Chain (· ≤ ·) iu0 (siTraceN ⟨some iu0, some lk, some tc⟩ cs) ∧
    (untl ≤ max now iu0 →
      setInhibitor ⟨some iu0, some lk, some tc⟩ now untl =
        .ok (false, ⟨some iu0, some lk, some tc⟩)) ∧
    (∀ s1 now2,
      setInhibitor ⟨some iu0, some lk, some tc⟩ now untl = .ok (true, s1) →
      setInhibitor s1 now2 untl = .ok (false, s1)) := by
  refine ⟨siTraceN_chain cs iu0 lk tc, ?_, ?_⟩
  · intro h
    rw [setInhibitor_open, if_pos h]
  · intro s1 now2 h
    rw [setInhibitor_open] at h
    by_cases hle : untl ≤ max now iu0
    · rw [if_pos hle] at h
      simp at h
    · rw [if_neg hle] at h
      have hs1 : s1 = ⟨some untl, some true, some (.unlock untl)⟩ := by
        simpa using h.symm
      rw [hs1, setInhibitor_open, if_pos (le_max_right now2 untl)]

theorem C1_setInhibitor_monotonic_witness :
    List.Chain (· ≤ ·) 0
      (siTraceN ⟨some 0, some false, some .noop⟩ [(0, 10), (5, 3), (6, 12)]) ∧
    setInhibitor ⟨some 0, some false, some TimerCb.noop⟩ 2 (-1) =
      .ok (false, ⟨some 0, some false, some .noop⟩) ∧
    setInhibitor ⟨some 10, some true, some (.unlock 10)⟩ 7 10 =
      .ok (false, ⟨some 10, some true, some (.unlock 10)⟩) :=
  ⟨(C1_setInhibitor_monotonic 0 false .noop [(0, 10), (5, 3), (6, 12)] 2
      (-1)).1,
   (C1_setInhibitor_monotonic 0 false .noop [] 2 (-1)).2.1 (by decide),
   (C1_setInhibitor_monotonic 0 false .noop [] 0 10).2.2
     ⟨some 10, some true, some (.unlock 10)⟩ 7 rfl⟩

/-- C2: on an open `ScheduledInhibition`, `unset_inhibitor(set_at, force)`
releases the sleep lock and returns `True` exactly when `force` is set or
`set_at` equals the current `inhibit_until`; otherwise it returns `False` and
leaves the lock as it was.  Consequently the auto-release timer of a
`set_inhibitor(u1)` that was superseded by a later successful
`set_inhibitor(u2)` (its callback runs `unset_inhibitor(u1)`) never releases
the lock. -/
theorem C2_unsetInhibitor_release_iff (iu : Int) (lk : Bool) (tc : TimerCb)
    (setAt : Int) (force : Bool) :
    (unsetInhibitor ⟨some iu, some lk, some tc⟩ setAt force =
        (true, ⟨some iu, some false, some tc⟩) ↔
      (force = true ∨ setAt = iu)) ∧
    (¬(force = true ∨ setAt = iu) →
      unsetInhibitor ⟨some iu, some lk, some tc⟩ setAt force =
        (false, ⟨some iu, some lk, some tc⟩)) ∧
    (∀ n1 u1 n2 u2 s1 s2,
      setInhibitor ⟨some iu, some lk, some tc⟩ n1 u1 = .ok (true, s1) →
      setInhibitor s1 n2 u2 = .ok (true, s2) →
      s1.timer = some (.unlock u1) ∧
      unsetInhibitor s2 u1 false = (false, s2) ∧
      s2.sleepLockHeld = some true) := by
  have hrun : unsetInhibitor ⟨some iu, some lk, some tc⟩ setAt force =
      if force = true ∨ setAt = iu
      then (true, ⟨some iu, some false, some tc⟩)
      else (false, ⟨some iu, some lk, some tc⟩) := by
    by_cases h : force = true ∨ setAt = iu
    · rw [if_pos h]
      rcases h with h | h
      · subst h
        simp [unsetInhibitor]
      · subst h
        simp [unsetInhibitor]
    · rw [if_neg h]
      push_neg at h
      have hne : (some iu : Option Int) ≠ some setAt := by
        simpa [eq_comm] using h.2
      simp [unsetInhibitor, hne, h.1]
  refine ⟨?_, ?_, ?_⟩
  · constructor
    · intro h
      by_contra hc
      rw [hrun, if_neg hc] at h
      simp at h
    · intro h
      rw [hrun, if_pos h]
  · intro h
    rw [hrun, if_neg h]
  · intro n1 u1 n2 u2 s1 s2 h1 h2
    rw [setInhibitor_open] at h1
    by_cases hle : u1 ≤ max n1 iu
    · rw [if_pos hle] at h1
      simp at h1
    · rw [if_neg hle] at h1
      have hs1 : s1 = ⟨some u1, some true, some (.unlock u1)⟩ := by
        simpa using h1.symm
      rw [hs1, setInhibitor_open] at h2
      by_cases hle2 : u2 ≤ max n2 u1
      · rw [if_pos hle2] at h2
        simp at h2
      · rw [if_neg hle2] at h2
        have hs2 : s2 = ⟨some u2, some true, some (.unlock u2)⟩ := by
          simpa using h2.symm
        have hne : u2 ≠ u1 := by
          have := le_max_right n2 u1
          omega
        refine ⟨hs1 ▸ rfl, ?_, hs2 ▸ rfl⟩
        rw [hs2]
        simp [unsetInhibitor, SIState.mk.injEq, hne]

theorem C2_unsetInhibitor_release_iff_witness :
    unsetInhibitor ⟨some 9, some true, some .noop⟩ 9 false =
      (true, ⟨some 9, some false, some .noop⟩) ∧
    unsetInhibitor ⟨some 9, some true, some .noop⟩ 4 false =
      (false, ⟨some 9, some true, some .noop⟩) ∧
    (⟨some 10, some true, some (.unlock 10)⟩ : SIState).timer =
      some (.unlock 10) ∧
    unsetInhibitor ⟨some 20, some true, some (.unlock 20)⟩ 10 false =
      (false, ⟨some 20, some true, some (.unlock 20)⟩) ∧
    (⟨some 20, some true, some (.unlock 20)⟩ : SIState).sleepLockHeld =
      some true :=
  ⟨(C2_unsetInhibitor_release_iff 9 true .noop 9 false).1.mpr (Or.inr rfl),
   (C2_unsetInhibitor_release_iff 9 true .noop 4 false).2.1 (by decide),
   (C2_unsetInhibitor_release_iff 0 false .noop 0 false).2.2 0 10 5 20
     ⟨some 10, some true, some (.unlock 10)⟩
     ⟨some 20, some true, some (.unlock 20)⟩ rfl rfl⟩

/-- C10: calling `set_inhibitor` on a `ScheduledInhibition` that is not open
(`_inhibit_until is None`, as after `__init__` or `__exit__`) raises
`TypeError` at the unguarded `max(datetime.now(), None)` fast path, so the
guarded branch that would log a warning and return `False` is never reached in
this closed state. -/
theorem C10_setInhibitor_closed_raises (s : SIState) (now untl : Int)
    (h : s.inhibitUntil = none) :
    setInhibitor s now untl = .error .typeError ∧
    (exitSI s).inhibitUntil = none ∧ initSI.inhibitUntil = none := by
  refine ⟨?_, rfl, rfl⟩
  rw [setInhibitor, h]

theorem C10_setInhibitor_closed_raises_witness :
    setInhibitor (exitSI (enterSI 0)) 5 100 = .error .typeError ∧
    (exitSI (exitSI (enterSI 0))).inhibitUntil = none ∧
    initSI.inhibitUntil = none :=
  C10_setInhibitor_closed_raises (exitSI (enterSI 0)) 5 100 (by decide)

/-- The exact pipe line of end-to-end scenario 1 / the spec's BindMessage
schema: a JSON object with exactly the fields `type`, `version`, `pid`,
`uid`. -/
def bindDict4 : List (String × JVal) :=
  [("type", .jstr "BindMessage"), ("version", .jint 2),
   ("pid", .jint 1234), ("uid", .jint 1000)]

/-- A server state with no bound clients and an open inhibitor. -/
def stC3 : ServerState := ⟨∅, enterSI 0⟩

/-- C3 counterexample: the scenario-1 bind line `{type, version, pid, uid}`
does NOT decode — `object_hook` evaluates `d["attempt"]` and raises
`KeyError`, so `_receive_message` drops the message and the pid is never
added to the bound-client set. -/
theorem C3_scenario1_bind_counterexample :
    objectHook bindDict4 = .error (.keyError "attempt") ∧
    receiveMessage stC3 0 bindDict4 = stC3 ∧
    JVal.jint 1234 ∉ boundTo (receiveMessage stC3 0 bindDict4) := by
  refine ⟨rfl, rfl, ?_⟩
  show JVal.jint 1234 ∉ (∅ : Finset JVal)
  exact Finset.not_mem_empty _

/-- C3 (amended): a newline-terminated pipe line holding a JSON object with
exactly the fields `type="BindMessage"`, `version`, `pid`, `uid` and
`attempt` decodes into a `BindMessage` and its pid is added to
`BoundClientSet`, so `bound_to()` afterwards contains the pid. -/
theorem C3_bind_decode_adds_pid (st : ServerState) (now : Int)
    (v p u a : Int) :
    receiveMessage st now
        [("type", .jstr "BindMessage"), ("version", .jint v),
         ("pid", .jint p), ("uid", .jint u), ("attempt", .jint a)] =
      { st with boundClients := insert (.jint p) st.boundClients } ∧
    JVal.jint p ∈ boundTo (receiveMessage st now
        [("type", .jstr "BindMessage"), ("version", .jint v),
         ("pid", .jint p), ("uid", .jint u), ("attempt", .jint a)]) := by
  have hdec : objectHook
      [("type", .jstr "BindMessage"), ("version", .jint v),
       ("pid", .jint p), ("uid", .jint u), ("attempt", .jint a)] =
      .ok (.bind ⟨.jint p, .jint u, .jint a⟩) := rfl
  have hrm : receiveMessage st now
      [("type", .jstr "BindMessage"), ("version", .jint v),
       ("pid", .jint p), ("uid", .jint u), ("attempt", .jint a)] =
      handleBind st ⟨.jint p, .jint u, .jint a⟩ := by
    rw [receiveMessage, hdec]
  have hb : handleBind st ⟨.jint p, .jint u, .jint a⟩ =
      { st with boundClients := insert (.jint p) st.boundClients } := by
    by_cases hm : (JVal.jint p) ∈ st.boundClients
    · simp only [handleBind, if_pos hm]
      have : insert (JVal.jint p) st.boundClients = st.boundClients :=
        Finset.insert_eq_self.mpr hm
      rw [this]
    · simp only [handleBind, if_neg hm]
  refine ⟨hrm.trans hb, ?_⟩
  rw [hrm, hb, boundTo]
  exact Finset.mem_insert_self _ _

/-- C5: `_handle_inhibit` on a message from an unbound pid changes nothing
and never calls `set_inhibitor`; on a message from a bound pid it calls
`set_inhibitor` exactly once with the message's `expiry_timestamp`, leaving
`BoundClientSet` unchanged. -/
theorem C5_handleInhibit_unbound_ignored (st : ServerState) (now : Int)
    (m : InhibitMsg) :
    (m.pid ∉ st.boundClients → handleInhibit st now m = (.ok st, [])) ∧
    (m.pid ∈ st.boundClients →
      (handleInhibit st now m).2 = [m.expiry] ∧
      (handleInhibit st now m).1 =
        (setInhibitor st.inhibitor now m.expiry).map
          (fun p => { st with inhibitor := p.2 })) := by
  constructor
  · intro h
    simp [handleInhibit, h]
  · intro h
    cases hset : setInhibitor st.inhibitor now m.expiry with
    | ok p =>
      obtain ⟨b, si2⟩ := p
      simp [handleInhibit, h, hset, Except.map]
    | error e =>
      simp [handleInhibit, h, hset, Except.map]

theorem C5_handleInhibit_unbound_ignored_witness :
    handleInhibit ⟨∅, enterSI 0⟩ 0 ⟨.jint 7, .jint 0, 50⟩ =
      (.ok ⟨∅, enterSI 0⟩, []) ∧
    (handleInhibit ⟨{.jint 7}, enterSI 0⟩ 0 ⟨.jint 7, .jint 0, 50⟩).2 =
      [(50 : Int)] ∧
    (handleInhibit ⟨{.jint 7}, enterSI 0⟩ 0 ⟨.jint 7, .jint 0, 50⟩).1 =
      (setInhibitor (enterSI 0) 0 50).map
        (fun p => { boundClients := {.jint 7}, inhibitor := p.2 }) :=
  ⟨(C5_handleInhibit_unbound_ignored ⟨∅, enterSI 0⟩ 0
      ⟨.jint 7, .jint 0, 50⟩).1 (by simp),
   ((C5_handleInhibit_unbound_ignored ⟨{.jint 7}, enterSI 0⟩ 0
      ⟨.jint 7, .jint 0, 50⟩).2 (by simp)).1,
   ((C5_handleInhibit_unbound_ignored ⟨{.jint 7}, enterSI 0⟩ 0
      ⟨.jint 7, .jint 0, 50⟩).2 (by simp)).2⟩

theorem handleBind_boundClients (st : ServerState) (m : BindMsg) :
    (handleBind st m).boundClients = insert m.pid st.boundClients := by
  by_cases hm : m.pid ∈ st.boundClients
  · simp only [handleBind, if_pos hm]
    exact (Finset.insert_eq_self.mpr hm).symm
  · simp only [handleBind, if_neg hm]

theorem handleBind_foldl :
    ∀ (msgs : List BindMsg) (st0 : ServerState),
      (msgs.foldl handleBind st0).boundClients =
        st0.boundClients ∪ (msgs.map (fun m => m.pid)).toFinset
  | [], st0 => by simp
  | m :: msgs, st0 => by
    rw [List.foldl_cons, handleBind_foldl msgs, handleBind_boundClients]
    simp only [List.map_cons, List.toFinset_cons]
    rw [Finset.insert_union, Finset.union_insert]

/-- C6: `_handle_bind` is idempotent — an already-bound pid leaves
`BoundClientSet` unchanged, a new pid adds exactly that pid — and folding any
list of bind messages over the empty set yields exactly the set of their
pids. -/
theorem C6_handleBind_idempotent (st : ServerState) (m : BindMsg)
    (msgs : List BindMsg) (si : SIState) :
    (m.pid ∈ st.boundClients → handleBind st m = st) ∧
    (handleBind st m).boundClients = insert m.pid st.boundClients ∧
    (msgs.foldl handleBind ⟨∅, si⟩).boundClients =
      (msgs.map (fun m2 => m2.pid)).toFinset := by
  refine ⟨?_, handleBind_boundClients st m, ?_⟩
  · intro h
    simp [handleBind, h]
  · rw [handleBind_foldl]
    simp

theorem C6_handleBind_idempotent_witness :
    handleBind ⟨{.jint 3}, enterSI 0⟩ ⟨.jint 3, .jint 0, .jint 1⟩ =
      ⟨{.jint 3}, enterSI 0⟩ :=
  (C6_handleBind_idempotent ⟨{.jint 3}, enterSI 0⟩ ⟨.jint 3, .jint 0, .jint 1⟩
    [] (enterSI 0)).1 (by simp)

/-- C4 counterexample: the sweep CAN delete `FIFO_12abc`, whose full name is
not `FIFO_<digits>` — `re.match` anchors only at the start, so group 1 is
`"12"`; with the `ps` lookup failing for pid 12 the entry is deleted. -/
theorem C4_sweep_counterexample :
    sweepEntry (fun _ => (false, false)) 999 ("FIFO_12abc".toList) =
      .delete ∧
    ¬ ExactFifoName ("FIFO_12abc".toList) := by
  constructor
  · rfl
  · rintro ⟨ds, hds, hne, hall⟩
    have h0 : "FIFO_".toList ++ "12abc".toList = "FIFO_".toList ++ ds := by
      rw [← hds]
      decide
    have hds2 : ds = "12abc".toList := (List.append_cancel_left h0).symm
    subst hds2
    have ha := hall 'a' (by decide)
    exact absurd ha (by decide)

/-- C4 (amended): the sweep deletes a directory entry iff its name starts
with `FIFO_` followed by at least one digit (the digits need not extend to
the end of the name: `FIFO_12abc` is deletable) and the `ps` lookup of the
leading digit run fails or reports a command not ending in the daemon's
basename; entries with no digit right after `FIFO_` (such as `FIFO_xyz`) are
never deleted. -/
theorem C4_sweep_delete_iff (ps : List Char → Bool × Bool) (myPid : Nat)
    (name : List Char) :
    (sweepEntry ps myPid name = .delete ↔
      ∃ pid, matchFifo name = some pid ∧
        ((ps pid).1 = false ∨ (ps pid).2 = false)) ∧
    (matchFifo name = none → sweepEntry ps myPid name = .skip) := by
  constructor
  · cases hm : matchFifo name with
    | none => simp [sweepEntry, hm]
    | some pid =>
      rcases hps : ps pid with ⟨b1, b2⟩
      cases b1 <;> cases b2 <;>
        simp [sweepEntry, hm, hps, pyStrEqInt]
  · intro h
    simp [sweepEntry, h]

theorem C4_sweep_delete_iff_witness :
    sweepEntry (fun _ => (false, false)) 999 ("FIFO_77".toList) = .delete ∧
    sweepEntry (fun _ => (true, true)) 999 ("FIFO_xyz".toList) = .skip :=
  ⟨(C4_sweep_delete_iff (fun _ => (false, false)) 999
      ("FIFO_77".toList)).1.mpr ⟨['7', '7'], by decide, Or.inl rfl⟩,
   (C4_sweep_delete_iff (fun _ => (true, true)) 999 ("FIFO_xyz".toList)).2
     (by decide)⟩

theorem hscLoop_spec :
    ∀ (fuel : Nat) (now iu : Int) (inc : Bool)
      (sched polled0 : List SchedCheck) (trace0 : List Cond)
      (sched2 : List SchedCheck) (iu2 : Int) (inc2 : Bool)
      (polled : List SchedCheck) (trace : List Cond),
      hscLoop now fuel sched iu inc polled0 trace0 =
        some (sched2, iu2, inc2, polled, trace) →
      (∀ sc ∈ sched, 0 < sc.cond.period) →
      ∃ newp : List SchedCheck,
        polled = polled0 ++ newp ∧
        trace = trace0 ++ newp.map (fun sc => sc.cond) ∧
        (∀ sc ∈ newp, sc.time ≤ now ∧ 0 < sc.cond.period) ∧
        (sched ++ newp.map (reoffer now)).Perm (sched2 ++ newp) ∧
        (∀ sc ∈ sched2, 0 < sc.cond.period) := by
  intro fuel
  induction fuel with
  | zero =>
    intro now iu inc sched polled0 trace0 sched2 iu2 inc2 polled trace h _
    simp [hscLoop] at h
  | succ fuel ih =>
    intro now iu inc sched polled0 trace0 sched2 iu2 inc2 polled trace h hper
    cases sched with
    | nil =>
      rw [hscLoop] at h
      exact absurd h (by simp)
    | cons root rest =>
      rw [hscLoop] at h
      by_cases hge : now ≥ root.time
      · rw [if_pos hge] at h
        obtain ⟨l2, hrun, hperm, _⟩ := heappop_spec scKey (root :: rest)
          (by simp)
        have hgd : (root :: rest).getD 0 default = root := rfl
        rw [hgd] at hrun hperm
        rw [hrun] at h
        obtain ⟨p1, p2, h3⟩ : ∃ p1 p2,
            hscLoop now fuel (heappush scKey l2 (reoffer now root)) p1 p2
              (polled0 ++ [root]) (trace0 ++ [root.cond]) =
              some (sched2, iu2, inc2, polled, trace) := ⟨_, _, h⟩
        have hrest : rest.Perm l2 := (hperm.cons_inv).symm
        have hper2 : ∀ sc ∈ heappush scKey l2 (reoffer now root),
            0 < sc.cond.period := by
          intro sc hsc
          have hmem := (heappush_perm scKey l2 (reoffer now root)).mem_iff.mp hsc
          rcases List.mem_cons.mp hmem with hh | hh
          · subst hh
            exact hper root (List.mem_cons_self _ _)
          · exact hper sc (List.mem_cons.mpr
              (Or.inr ((hrest.mem_iff).mpr hh)))
        obtain ⟨newp2, hp, ht, hb, hperm2, hper3⟩ :=
          ih now p1 p2 (heappush scKey l2 (reoffer now root))
            (polled0 ++ [root]) (trace0 ++ [root.cond]) sched2 iu2 inc2
            polled trace h3 hper2
        refine ⟨root :: newp2, ?_, ?_, ?_, ?_, hper3⟩
        · rw [hp, List.append_assoc]
          rfl
        · rw [ht, List.append_assoc]
          rfl
        · intro sc hsc
          rcases List.mem_cons.mp hsc with hh | hh
          · subst hh
            exact ⟨hge, hper sc (List.mem_cons_self _ _)⟩
          · exact hb sc hh
        · have hlhs : ((root :: rest) ++
              (reoffer now root :: newp2.map (reoffer now))).Perm
              (root :: (sched2 ++ newp2)) := by
            have h1 : (rest ++ (reoffer now root :: newp2.map (reoffer now))).Perm
                (reoffer now root :: (rest ++ newp2.map (reoffer now))) :=
              List.perm_middle
            have h2 : (rest ++ newp2.map (reoffer now)).Perm
                (l2 ++ newp2.map (reoffer now)) :=
              hrest.append_right _
            have h3p : (reoffer now root :: (l2 ++ newp2.map (reoffer now))).Perm
                (sched2 ++ newp2) := by
              have hpush := (heappush_perm scKey l2
                (reoffer now root)).append_right (newp2.map (reoffer now))
              exact (hpush.symm.trans hperm2)
            exact (List.Perm.cons root
              (h1.trans ((h2.cons _).trans h3p)))
          have hrhs : (sched2 ++ (root :: newp2)).Perm
              (root :: (sched2 ++ newp2)) := List.perm_middle
          exact hlhs.trans hrhs.symm
      · rw [if_neg hge] at h
        simp only [Option.some.injEq, Prod.mk.injEq] at h
        obtain ⟨h1, _, _, h4, h5⟩ := h
        refine ⟨[], by simp [h4.symm], by simp [h5.symm], by simp, ?_, ?_⟩
        · rw [h1]
          simp
        · rw [← h1]
          exact hper

/-- C8: a completed run of `_handle_scheduled_checks` preserves both the
schedule's size and its multiset of conditions (one entry per condition);
the `does_inhibit` trace has exactly one call per polled entry; every polled
entry was due (`time ≤ now`) and is re-offered exactly once for the same
condition at `lastTime + period`, or `now + period` when `lastTime + period`
lies in the past, so every re-offered time is at least `now` (periods are
positive). -/
theorem C8_schedule_conservation (now : Int) (fuel : Nat)
    (sched sched2 : List SchedCheck) (iu iu2 : Int) (inc : Bool)
    (polled : List SchedCheck) (trace : List Cond)
    (hper : ∀ sc ∈ sched, 0 < sc.cond.period)
    (h : handleScheduledChecks now fuel sched iu =
      some (sched2, iu2, inc, polled, trace)) :
    trace = polled.map (fun sc => sc.cond) ∧
    (∀ sc ∈ polled, sc.time ≤ now) ∧
    (∀ sc ∈ polled, now ≤ (reoffer now sc).time) ∧
    (sched ++ polled.map (reoffer now)).Perm (sched2 ++ polled) ∧
    sched2.length = sched.length ∧
    (sched2.map (fun sc => sc.cond)).Perm (sched.map (fun sc => sc.cond)) := by
  obtain ⟨newp, hp, ht, hb, hperm, _⟩ :=
    hscLoop_spec fuel now iu false sched [] [] sched2 iu2 inc polled trace
      h hper
  simp only [List.nil_append] at hp ht
  subst hp
  refine ⟨ht, fun sc hsc => (hb sc hsc).1, ?_, hperm, ?_, ?_⟩
  · intro sc hsc
    have hpp := (hb sc hsc).2
    show now ≤ (reoffer now sc).time
    simp only [reoffer]
    split <;> omega
  · have hlen := hperm.length_eq
    simp only [List.length_append, List.length_map] at hlen
    omega
  · have hm := hperm.map (fun sc => sc.cond)
    rw [List.map_append, List.map_append, List.map_map] at hm
    have hcond : ((fun sc => sc.cond) ∘ reoffer now) =
        (fun (sc : SchedCheck) => sc.cond) := rfl
    rw [hcond] at hm
    exact ((List.perm_append_right_iff _).mp hm).symm

theorem C8_schedule_conservation_witness :
    ([⟨2, 30, false⟩] : List Cond) =
      ([⟨90, ⟨2, 30, false⟩⟩] : List SchedCheck).map (fun sc => sc.cond) ∧
    (∀ sc ∈ ([⟨90, ⟨2, 30, false⟩⟩] : List SchedCheck), sc.time ≤ 100) ∧
    (∀ sc ∈ ([⟨90, ⟨2, 30, false⟩⟩] : List SchedCheck),
      100 ≤ (reoffer 100 sc).time) ∧
    ((([⟨90, ⟨2, 30, false⟩⟩, ⟨120, ⟨1, 30, true⟩⟩] : List SchedCheck) ++
      ([⟨90, ⟨2, 30, false⟩⟩] : List SchedCheck).map (reoffer 100))).Perm
      (([⟨120, ⟨1, 30, true⟩⟩, ⟨120, ⟨2, 30, false⟩⟩] : List SchedCheck) ++
        ([⟨90, ⟨2, 30, false⟩⟩] : List SchedCheck)) ∧
    ([⟨120, ⟨1, 30, true⟩⟩, ⟨120, ⟨2, 30, false⟩⟩] : List SchedCheck).length =
      ([⟨90, ⟨2, 30, false⟩⟩, ⟨120, ⟨1, 30, true⟩⟩] : List SchedCheck).length ∧
    (([⟨120, ⟨1, 30, true⟩⟩, ⟨120, ⟨2, 30, false⟩⟩] : List SchedCheck).map
      (fun sc => sc.cond)).Perm
      (([⟨90, ⟨2, 30, false⟩⟩, ⟨120, ⟨1, 30, true⟩⟩] : List SchedCheck).map
        (fun sc => sc.cond)) :=
  C8_schedule_conservation 100 10
    [⟨90, ⟨2, 30, false⟩⟩, ⟨120, ⟨1, 30, true⟩⟩]
    [⟨120, ⟨1, 30, true⟩⟩, ⟨120, ⟨2, 30, false⟩⟩] 0 0 false
    [⟨90, ⟨2, 30, false⟩⟩] [⟨2, 30, false⟩] (by decide)
    (by simp [handleScheduledChecks, hscLoop, heappop, heappush, siftup,
      siftupLoop, siftdownLoop, scKey])

end NoDoze
